import Mathlib

/-!
Verification of `scripts/crawl_and_merge.py`, a crawler that lists a GitHub
repository folder, downloads each JSON file, extracts a handful of fields and
writes a single catalog file.

The Python code is shallowly embedded:
* JSON values (the results of `json.loads` and the field values of API items)
  are the inductive type `JVal`.  Python `dict.get(k)` returning `None` for a
  missing key is `jget`, which yields `JVal.null`; Python truthiness is
  `pyTruthy`; `str.strip()` is `pyStrip` (ASCII whitespace).
* the network is a parameter: the raw-content downloader, the JSON parser and
  the refs endpoint are oracle functions supplied to the embedded `main`.
* Python exceptions are `Except Unit`: a raised exception is `Except.error ()`.
-/

inductive JVal where
  | null : JVal
  | bool (b : Bool) : JVal
  | num (n : Int) : JVal
  | str (s : String) : JVal
  | arr (xs : List JVal) : JVal
  | obj (fields : List (String × JVal)) : JVal

/-- Models `d.get(k)` on a Python dict, with `None` for a missing key (and for a
non-dict receiver, which the crawler never queries via this helper without an
explicit dict check first).  JSON objects have pairwise distinct keys, so the
first matching binding is the binding. -/
def jget (v : JVal) (k : String) : JVal :=
  match v with
  | JVal.obj fs =>
    match fs.find? (fun kv => kv.1 == k) with
    | some kv => kv.2
    | none => JVal.null
  | _ => JVal.null

/-- Python truthiness of a JSON value. -/
def pyTruthy : JVal → Bool
  | JVal.null => false
  | JVal.bool b => b
  | JVal.num n => n != 0
  | JVal.str s => !s.isEmpty
  | JVal.arr xs => !xs.isEmpty
  | JVal.obj fs => !fs.isEmpty

/-- Models `s.strip()`: drop leading and trailing whitespace. -/
def pyStrip (s : String) : String :=
  String.mk (((s.toList.dropWhile Char.isWhitespace).reverse.dropWhile
    Char.isWhitespace).reverse)

/-- The list the plan loop of `aggregate_deprecation` runs over:
`plans = service_obj.get("servicePlans") or []` followed by
`if isinstance(plans, list)`.  A missing, falsy or non-list value iterates
nothing. -/
def plansOf (svc : JVal) : List JVal :=
  match jget svc "servicePlans" with
  | JVal.arr xs => xs
  | _ => []

/-- Evaluates `isinstance(service_obj.get(k), bool) and service_obj.get(k)`. -/
def boolTrueAt (svc : JVal) (k : String) : Bool :=
  match jget svc k with
  | JVal.bool true => true
  | _ => false

/-- Evaluates `not msg` on the `Optional[str]` accumulator of `aggregate_deprecation`. -/
def pyNotOpt : Option String → Bool
  | none => true
  | some s => s.isEmpty

/-- Evaluates `isinstance(v, str) and v.strip()`: the stripped value when it is a
non-empty string, otherwise `none`. -/
def nonEmptyStrippedOf (v : JVal) : Option String :=
  match v with
  | JVal.str s => if (pyStrip s).isEmpty then none else some (pyStrip s)
  | _ => none

/-- One root-level assignment `if isinstance(v, str) and v.strip(): acc = v.strip()`
for key `k`: keeps `acc` unless the value at `k` strips to a non-empty string. -/
def rootStr (svc : JVal) (k : String) (acc : Option String) : Option String :=
  match nonEmptyStrippedOf (jget svc k) with
  | some v => some v
  | none => acc

/-- Evaluates `p.get("deprecated") is True` for a plan entry (non-dict entries are
skipped by the loop and satisfy nothing, since `jget` is `null` on them). -/
def flaggedB (p : JVal) : Bool :=
  match jget p "deprecated" with
  | JVal.bool true => true
  | _ => false

/-- Models `if not acc and isinstance(p.get(k), str) and p[k].strip(): acc = p[k].strip()`. -/
def updOpt (k : String) (acc : Option String) (p : JVal) : Option String :=
  if pyNotOpt acc then
    match nonEmptyStrippedOf (jget p k) with
    | some v => some v
    | none => acc
  else acc

/-- The body of the `for p in plans` loop of `aggregate_deprecation`:
non-dict entries and plans whose `deprecated` is not `True` leave the state
unchanged; a flagged plan sets the flag and harvests message/date only while
they are unset. -/
def planStep (st : Bool × Option String × Option String) (p : JVal) :
    Bool × Option String × Option String :=
  if flaggedB p then
    (true, updOpt "deprecationMessage" st.2.1 p, updOpt "deprecationDate" st.2.2 p)
  else st

/-- Translates `aggregate_deprecation(service_obj)` from the source: root-level boolean
flags, root-level message/date harvesting (each key assigned in turn), then
the scan of `servicePlans`. -/
def aggregate_deprecation (svc : JVal) : Bool × Option String × Option String :=
  let dep := boolTrueAt svc "deprecated" || boolTrueAt svc "isDeprecated"
  let msg := rootStr svc "deprecatedMessage" (rootStr svc "deprecationMessage" none)
  let date := rootStr svc "deprecatedDate" (rootStr svc "deprecationDate" none)
  (plansOf svc).foldl planStep (dep, msg, date)

/-- Invariant of the message/date accumulators: when set, they are non-empty
(they only ever receive non-empty stripped strings). -/
def okOpt (m : Option String) : Prop := ∀ s, m = some s → s.isEmpty = false

theorem okOpt_none : okOpt none := by
  intro s h
  cases h

theorem okOpt_rootStr (svc : JVal) (k : String) (acc : Option String)
    (h : okOpt acc) : okOpt (rootStr svc k acc) := by
  intro s hs
  unfold rootStr at hs
  revert hs
  unfold nonEmptyStrippedOf
  cases jget svc k with
  | str v =>
    by_cases hv : (pyStrip v).isEmpty
    · simp [hv]
      exact fun hs => h s hs
    · simp [hv]
      intro hs
      subst hs
      exact eq_false_of_ne_true hv
  | null => exact fun hs => h s hs
  | bool b => exact fun hs => h s hs
  | num n => exact fun hs => h s hs
  | arr xs => exact fun hs => h s hs
  | obj fs => exact fun hs => h s hs

theorem pyNotOpt_eq_isNone (m : Option String) (h : okOpt m) :
    pyNotOpt m = m.isNone := by
  cases m with
  | none => rfl
  | some s => simp [pyNotOpt, h s rfl]

theorem okOpt_nonEmptyStrippedOf (v : JVal) (s : String)
    (h : nonEmptyStrippedOf v = some s) : s.isEmpty = false := by
  unfold nonEmptyStrippedOf at h
  revert h
  cases v with
  | str t =>
    by_cases ht : (pyStrip t).isEmpty
    · simp [ht]
    · simp [ht]
      intro h
      subst h
      exact eq_false_of_ne_true ht
  | null => intro h; cases h
  | bool b => intro h; cases h
  | num n => intro h; cases h
  | arr xs => intro h; cases h
  | obj fs => intro h; cases h

/-- Here `orUnset m r` is `m` when set, else `r`: the "first value wins" shape used
to describe the loop accumulators. -/
def orUnset (m : Option String) (r : Option String) : Option String :=
  match m with
  | some _ => m
  | none => r

/-- Characterization of the plan-scanning loop: the flag becomes true exactly
when some plan entry is flagged, and message/date keep their root value when
set, else take the first harvestable value among the flagged plans. -/
theorem foldl_planStep_spec (ps : List JVal) (d : Bool) (m t : Option String)
    (hm : okOpt m) (ht : okOpt t) :
    ps.foldl planStep (d, m, t) =
      (d || ps.any flaggedB,
       orUnset m ((ps.filter flaggedB).findSome?
            (fun p => nonEmptyStrippedOf (jget p "deprecationMessage"))),
       orUnset t ((ps.filter flaggedB).findSome?
            (fun p => nonEmptyStrippedOf (jget p "deprecationDate")))) := by
  induction ps generalizing d m t with
  | nil =>
    cases m <;> cases t <;> simp [orUnset]
  | cons p ps ih =>
    by_cases hf : flaggedB p
    · have hstep : planStep (d, m, t) p =
        (true, updOpt "deprecationMessage" m p, updOpt "deprecationDate" t p) := by
        simp [planStep, hf]
      have hany : (p :: ps).any flaggedB = true := by
        simp [hf]
      have hfilter : (p :: ps).filter flaggedB = p :: ps.filter flaggedB := by
        simp [List.filter_cons, hf]
      have hmsg : ∀ (acc : Option String) (k : String), okOpt acc →
          okOpt (updOpt k acc p) ∧
          orUnset (updOpt k acc p) ((ps.filter flaggedB).findSome?
                (fun q => nonEmptyStrippedOf (jget q k))) =
          orUnset acc (((p :: ps).filter flaggedB).findSome?
                (fun q => nonEmptyStrippedOf (jget q k))) := by
        intro acc k hacc
        cases acc with
        | some s =>
          constructor
          · simpa [updOpt, pyNotOpt, hacc s rfl] using hacc
          · simp [updOpt, pyNotOpt, hacc s rfl, orUnset]
        | none =>
          cases hv : nonEmptyStrippedOf (jget p k) with
          | some v =>
            constructor
            · intro u hu
              have : v = u := by
                simpa [updOpt, pyNotOpt, hv] using hu
              subst this
              exact okOpt_nonEmptyStrippedOf _ _ hv
            · simp [updOpt, pyNotOpt, hv, hfilter, List.findSome?_cons, orUnset]
          | none =>
            constructor
            · intro u hu
              simp [updOpt, pyNotOpt, hv] at hu
            · simp [updOpt, pyNotOpt, hv, hfilter, List.findSome?_cons, orUnset]
      rcases hmsg m "deprecationMessage" hm with ⟨hm', hmeq⟩
      rcases hmsg t "deprecationDate" ht with ⟨ht', hteq⟩
      rw [List.foldl_cons, hstep, ih _ _ _ hm' ht']
      rw [hmeq, hteq, hany]
      simp
    · have hstep : planStep (d, m, t) p = (d, m, t) := by
        simp [planStep, hf]
      have hfilter : (p :: ps).filter flaggedB = ps.filter flaggedB := by
        simp [List.filter_cons, hf]
      rw [List.foldl_cons, hstep, ih _ _ _ hm ht]
      simp [hf, hfilter]

theorem boolTrueAt_iff (svc : JVal) (k : String) :
    boolTrueAt svc k = true ↔ jget svc k = JVal.bool true := by
  unfold boolTrueAt
  cases h : jget svc k with
  | bool b =>
    cases b with
    | true => simp
    | false => simp
  | null => simp
  | num n => simp
  | str s => simp
  | arr xs => simp
  | obj fs => simp

theorem flaggedB_iff (p : JVal) :
    flaggedB p = true ↔ jget p "deprecated" = JVal.bool true := by
  unfold flaggedB
  cases h : jget p "deprecated" with
  | bool b =>
    cases b with
    | true => simp
    | false => simp
  | null => simp
  | num n => simp
  | str s => simp
  | arr xs => simp
  | obj fs => simp

/-- Claim C1: for every service JSON object, the aggregated `deprecated` flag
is true iff a root-level boolean field `deprecated` or `isDeprecated` is true,
or some entry of its `servicePlans` list has `deprecated == true`; in
particular it is true whenever some plan is deprecated, regardless of the root
fields, and false when no signal is present. -/
theorem aggregate_deprecation_flag_iff (fs : List (String × JVal)) :
    (aggregate_deprecation (JVal.obj fs)).1 = true ↔
      jget (JVal.obj fs) "deprecated" = JVal.bool true ∨
      jget (JVal.obj fs) "isDeprecated" = JVal.bool true ∨
      ∃ p ∈ plansOf (JVal.obj fs), jget p "deprecated" = JVal.bool true := by
  unfold aggregate_deprecation
  rw [foldl_planStep_spec _ _ _ _
    (okOpt_rootStr _ _ _ (okOpt_rootStr _ _ _ okOpt_none))
    (okOpt_rootStr _ _ _ (okOpt_rootStr _ _ _ okOpt_none))]
  simp only [Bool.or_eq_true, List.any_eq_true]
  constructor
  · rintro ((h | h) | ⟨p, hp, hflag⟩)
    · exact Or.inl ((boolTrueAt_iff _ _).1 h)
    · exact Or.inr (Or.inl ((boolTrueAt_iff _ _).1 h))
    · exact Or.inr (Or.inr ⟨p, hp, (flaggedB_iff _).1 hflag⟩)
  · rintro (h | h | ⟨p, hp, hflag⟩)
    · exact Or.inl (Or.inl ((boolTrueAt_iff _ _).2 h))
    · exact Or.inl (Or.inr ((boolTrueAt_iff _ _).2 h))
    · exact Or.inr ⟨p, hp, (flaggedB_iff _).2 hflag⟩

/-- The extraction order claimed by the spec for message and date: the FIRST
non-empty value, checked root-level `deprecationMessage` then
`deprecatedMessage`, then — only if still unset — the first matching non-empty
value found while scanning the `servicePlans` list (no condition on the plan's
own `deprecated` flag). -/
def msg_claimed (svc : JVal) : Option String :=
  orUnset (nonEmptyStrippedOf (jget svc "deprecationMessage"))
    (orUnset (nonEmptyStrippedOf (jget svc "deprecatedMessage"))
      ((plansOf svc).findSome?
        (fun p => nonEmptyStrippedOf (jget p "deprecationMessage"))))

/-- Date companion of `msg_claimed`: root `deprecationDate` then
`deprecatedDate`, then the first matching non-empty value among the plans. -/
def date_claimed (svc : JVal) : Option String :=
  orUnset (nonEmptyStrippedOf (jget svc "deprecationDate"))
    (orUnset (nonEmptyStrippedOf (jget svc "deprecatedDate"))
      ((plansOf svc).findSome?
        (fun p => nonEmptyStrippedOf (jget p "deprecationDate"))))

/-- A document with both root message keys non-empty and a date only on a
non-deprecated plan: the code keeps the LAST root key and ignores the plan. -/
def cexC2 : JVal :=
  JVal.obj [("deprecationMessage", JVal.str "a"),
            ("deprecatedMessage", JVal.str "b"),
            ("servicePlans", JVal.arr
              [JVal.obj [("deprecated", JVal.bool false),
                         ("deprecationDate", JVal.str "2024-02-02")]])]

/-- Claim C2 is false on the code: at `cexC2` the code extracts message "b"
(the last non-empty root key, not the first) and no date (the plan carrying
the date is not flagged deprecated), while the claimed order yields message
"a" and date "2024-02-02". -/
theorem aggregate_deprecation_order_counterexample :
    (aggregate_deprecation cexC2).2 = (some "b", none) ∧
    (msg_claimed cexC2, date_claimed cexC2) = (some "a", some "2024-02-02") ∧
    ((some "b", (none : Option String)) ≠
      ((some "a" : Option String), (some "2024-02-02" : Option String))) := by
  refine ⟨by decide, by decide, by decide⟩

/-- Code order for the message, written independently of the loop: the last
non-empty root key among `deprecationMessage`, `deprecatedMessage` wins; only
if both are unset, the first non-empty `deprecationMessage` among the plans
whose `deprecated` is exactly `true`. -/
def msg_amended (svc : JVal) : Option String :=
  orUnset (nonEmptyStrippedOf (jget svc "deprecatedMessage"))
    (orUnset (nonEmptyStrippedOf (jget svc "deprecationMessage"))
      (((plansOf svc).filter flaggedB).findSome?
        (fun p => nonEmptyStrippedOf (jget p "deprecationMessage"))))

/-- Date companion of `msg_amended`. -/
def date_amended (svc : JVal) : Option String :=
  orUnset (nonEmptyStrippedOf (jget svc "deprecatedDate"))
    (orUnset (nonEmptyStrippedOf (jget svc "deprecationDate"))
      (((plansOf svc).filter flaggedB).findSome?
        (fun p => nonEmptyStrippedOf (jget p "deprecationDate"))))

theorem rootStr_eq_orUnset (svc : JVal) (k : String) (acc : Option String) :
    rootStr svc k acc = orUnset (nonEmptyStrippedOf (jget svc k)) acc := by
  unfold rootStr orUnset
  cases nonEmptyStrippedOf (jget svc k) <;> rfl

theorem orUnset_assoc (a b c : Option String) :
    orUnset (orUnset a b) c = orUnset a (orUnset b c) := by
  cases a <;> cases b <;> rfl

theorem orUnset_none (c : Option String) : orUnset none c = c := rfl

/-- The example document of the spec scenario:
`{"name":"x","servicePlans":[{"deprecated":true,"deprecationDate":"2024-01-01"}]}`. -/
def exampleDocC2 : JVal :=
  JVal.obj [("name", JVal.str "x"),
            ("servicePlans", JVal.arr
              [JVal.obj [("deprecated", JVal.bool true),
                         ("deprecationDate", JVal.str "2024-01-01")]])]

/-- Claim C2 amended: for every service JSON object, the extracted message
(resp. date) is the LAST non-empty value among the root keys
`deprecationMessage` then `deprecatedMessage` (resp. `deprecationDate` then
`deprecatedDate`) — so `deprecatedMessage`/`deprecatedDate` win when both are
set — and only if still unset after the root level, the first matching
non-empty value among the service plans whose `deprecated` field is exactly
`true`; the spec's example document still yields deprecated true, date
"2024-01-01" and a null message. -/
theorem aggregate_deprecation_order_amended (fs : List (String × JVal)) :
    (aggregate_deprecation (JVal.obj fs)).2.1 = msg_amended (JVal.obj fs) ∧
    (aggregate_deprecation (JVal.obj fs)).2.2 = date_amended (JVal.obj fs) ∧
    aggregate_deprecation exampleDocC2 = (true, none, some "2024-01-01") := by
  refine ⟨?_, ?_, by decide⟩ <;>
  · unfold aggregate_deprecation
    rw [foldl_planStep_spec _ _ _ _
      (okOpt_rootStr _ _ _ (okOpt_rootStr _ _ _ okOpt_none))
      (okOpt_rootStr _ _ _ (okOpt_rootStr _ _ _ okOpt_none))]
    simp only [rootStr_eq_orUnset, msg_amended, date_amended]
    rw [orUnset_assoc, orUnset_assoc, orUnset_none]

/-- Models `s.lower()` character-wise (ASCII case is what the link classifications
use). -/
def pyLower (s : String) : String := String.mk (s.toList.map Char.toLower)

/- `str(x)` for the value stored in a link entry.  For scalars this is
Python's rendering; containers are rendered recursively (Python would quote
and escape nested strings via `repr`, which is not modelled — no claim
depends on the rendering of a container value, only on which entry is
chosen). -/
mutual
def pyStr : JVal → String
  | JVal.null => "None"
  | JVal.bool true => "True"
  | JVal.bool false => "False"
  | JVal.num n => toString n
  | JVal.str s => s
  | JVal.arr xs => "[" ++ pyStrList xs ++ "]"
  | JVal.obj fs => "\x7b" ++ pyStrFields fs ++ "\x7d"
def pyStrList : List JVal → String
  | [] => ""
  | [v] => pyStr v
  | v :: vs => pyStr v ++ ", " ++ pyStrList vs
def pyStrFields : List (String × JVal) → String
  | [] => ""
  | [(k, v)] => k ++ ": " ++ pyStr v
  | (k, v) :: fs => k ++ ": " ++ pyStr v ++ ", " ++ pyStrFields fs
end

/-- Models `(l.get("classification") or "").lower()`: a missing or falsy
classification lowers the empty string; a string is lowercased; a truthy
non-string has no `.lower()` attribute and raises. -/
def pyLowerClass : JVal → Except Unit String
  | JVal.null => Except.ok ""
  | JVal.bool false => Except.ok ""
  | JVal.bool true => Except.error ()
  | JVal.num n => if n = 0 then Except.ok "" else Except.error ()
  | JVal.str s => Except.ok (pyLower s)
  | JVal.arr xs => if xs.isEmpty then Except.ok "" else Except.error ()
  | JVal.obj fs => if fs.isEmpty then Except.ok "" else Except.error ()

/-- A link entry whose classification can be lowercased without raising:
absent, null, falsy, or a string. -/
def classOk (l : JVal) : Bool :=
  match pyLowerClass (jget l "classification") with
  | Except.ok _ => true
  | Except.error _ => false

def isObjB : JVal → Bool
  | JVal.obj _ => true
  | _ => false

/-- Models `links = service_obj.get("links") or []` followed by
`if isinstance(links, list)`: a non-list (or missing, or falsy) value makes
every tier scan nothing. -/
def linksOf (svc : JVal) : List JVal :=
  match jget svc "links" with
  | JVal.arr xs => xs
  | _ => []

/-- One classification tier of `pick_best_link`: scan the entries in order,
skip non-dicts, evaluate each dict's lowercased classification (which can
raise), and return the stringified value of the first entry matching `want`
with a truthy value. -/
def scanTier (want : String) : List JVal → Except Unit (Option JVal)
  | [] => Except.ok none
  | l :: ls =>
    if isObjB l then
      match pyLowerClass (jget l "classification") with
      | Except.error _ => Except.error ()
      | Except.ok c =>
        if c == want && pyTruthy (jget l "value") then
          Except.ok (some (JVal.str (pyStr (jget l "value"))))
        else scanTier want ls
    else scanTier want ls

/-- The third tier of `pick_best_link`: the first dict entry with a truthy
value, classification not consulted. -/
def scanAny : List JVal → Option JVal
  | [] => none
  | l :: ls =>
    if isObjB l && pyTruthy (jget l "value") then
      some (JVal.str (pyStr (jget l "value")))
    else scanAny ls

/-- Translates `pick_best_link(service_obj, fallback_html_url)` from the source:
Discovery Center first, then Documentation, then any entry with a value,
else the fallback; a raised `AttributeError` from a truthy non-string
classification propagates. -/
def pick_best_link (svc : JVal) (fb : JVal) : Except Unit JVal :=
  match scanTier "discovery center" (linksOf svc) with
  | Except.error _ => Except.error ()
  | Except.ok (some v) => Except.ok v
  | Except.ok none =>
    match scanTier "documentation" (linksOf svc) with
    | Except.error _ => Except.error ()
    | Except.ok (some v) => Except.ok v
    | Except.ok none =>
      match scanAny (linksOf svc) with
      | some v => Except.ok v
      | none => Except.ok fb

/-- The classification equality the claim describes: the lowercased
classification when it is a string, anything else compares unequal to the
wanted tier name. -/
def classLowerTotal (l : JVal) : String :=
  match jget l "classification" with
  | JVal.str s => pyLower s
  | _ => ""

/-- One tier as the claim words it: the value of the first link object whose
classification equals `want` case-insensitively and whose value is
non-empty. -/
def tierPick (want : String) : List JVal → Option JVal
  | [] => none
  | l :: ls =>
    if isObjB l && classLowerTotal l == want && pyTruthy (jget l "value") then
      some (JVal.str (pyStr (jget l "value")))
    else tierPick want ls

/-- The resolution order claim C3 describes: Discovery Center, else
Documentation, else any entry with a value, else the fallback — always
returning. -/
def pick_best_link_claimed (svc : JVal) (fb : JVal) : JVal :=
  match tierPick "discovery center" (linksOf svc) with
  | some v => v
  | none =>
    match tierPick "documentation" (linksOf svc) with
    | some v => v
    | none =>
      match scanAny (linksOf svc) with
      | some v => v
      | none => fb

/-- A links list whose single entry has a truthy non-string classification
and a non-empty value: `(True or "").lower()` raises `AttributeError`. -/
def cexC3 : JVal :=
  JVal.obj [("links", JVal.arr
    [JVal.obj [("classification", JVal.bool true), ("value", JVal.str "v")]])]

/-- Claim C3 is false on the code: at `cexC3` the claimed resolution returns
the entry's value "v" (third tier: first link object with a non-empty value),
but the code raises while lowercasing the truthy non-string classification
instead of returning anything. -/
theorem pick_best_link_counterexample :
    pick_best_link cexC3 (JVal.str "FB") = Except.error () ∧
    pick_best_link_claimed cexC3 (JVal.str "FB") = JVal.str "v" ∧
    (Except.error () : Except Unit JVal) ≠ Except.ok (JVal.str "v") := by
  refine ⟨rfl, rfl, fun h => Except.noConfusion h⟩

theorem pyLowerClass_of_classOk (l : JVal) (h : classOk l = true) :
    pyLowerClass (jget l "classification") = Except.ok (classLowerTotal l) := by
  unfold classOk at h
  unfold classLowerTotal
  revert h
  unfold pyLowerClass
  cases jget l "classification" with
  | null => intro _; rfl
  | bool b => cases b with
    | false => intro _; rfl
    | true => intro h; cases h
  | num n =>
    by_cases hn : n = 0
    · simp [hn]
    · simp [hn]
  | str s => intro _; rfl
  | arr xs =>
    by_cases hx : xs.isEmpty
    · simp [hx]
    · simp [hx]
  | obj fs =>
    by_cases hf : fs.isEmpty
    · simp [hf]
    · simp [hf]

theorem scanTier_eq (want : String) (ls : List JVal)
    (h : ∀ l ∈ ls, classOk l = true) :
    scanTier want ls = Except.ok (tierPick want ls) := by
  induction ls with
  | nil => rfl
  | cons l ls ih =>
    have hl : classOk l = true := h l (List.mem_cons_self _ _)
    have hrest : ∀ x ∈ ls, classOk x = true :=
      fun x hx => h x (List.mem_cons_of_mem _ hx)
    by_cases ho : isObjB l
    · by_cases hc : (classLowerTotal l == want && pyTruthy (jget l "value")) = true
      · simp [scanTier, tierPick, ho, pyLowerClass_of_classOk l hl, hc,
          Bool.and_assoc]
      · simp [scanTier, tierPick, ho, pyLowerClass_of_classOk l hl, hc,
          Bool.and_assoc, ih hrest]
    · simp [scanTier, tierPick, ho, ih hrest]

/-- Claim C3 amended: for every service JSON object each of whose link
entries carries a classification that is absent, null, falsy or a string
(so that `.lower()` cannot raise), and every fallback, link resolution
returns, in strict priority order: the value of the first link object whose
lowercased classification is "discovery center" with a non-empty value, else
the first with classification "documentation" and a non-empty value, else the
first link object with any non-empty value, else the fallback HTML URL; a
truthy non-string classification instead raises (a per-file error), as the
counterexample shows. -/
theorem pick_best_link_resolution (fs : List (String × JVal)) (fb : JVal)
    (h : ∀ l ∈ linksOf (JVal.obj fs), classOk l = true) :
    pick_best_link (JVal.obj fs) fb =
      Except.ok (pick_best_link_claimed (JVal.obj fs) fb) := by
  unfold pick_best_link pick_best_link_claimed
  rw [scanTier_eq _ _ h, scanTier_eq _ _ h]
  cases tierPick "discovery center" (linksOf (JVal.obj fs)) with
  | some v => rfl
  | none =>
    cases tierPick "documentation" (linksOf (JVal.obj fs)) with
    | some v => rfl
    | none =>
      cases scanAny (linksOf (JVal.obj fs)) with
      | some v => rfl
      | none => rfl

/-- The fields of a service document whose links list has a Documentation
entry before a Discovery Center entry, both with values. -/
def witC3fields : List (String × JVal) :=
  [("links", JVal.arr
    [JVal.obj [("classification", JVal.str "Documentation"),
               ("value", JVal.str "doc")],
     JVal.obj [("classification", JVal.str "Discovery Center"),
               ("value", JVal.str "dc")]])]

theorem pick_best_link_resolution_witness :
    pick_best_link (JVal.obj witC3fields) (JVal.str "FB") =
      Except.ok (JVal.str "dc") := by
  have h := pick_best_link_resolution witC3fields (JVal.str "FB")
    (by intro l hl; fin_cases hl <;> rfl)
  exact h.trans rfl

/- The directory tree crawled by `crawl_file_items`.  A node is a listed item:
a file (carrying its descriptor dict), a directory (carrying the listing the
contents API returns for its path — with `bad := true` when that call yields
a non-list payload, which `list_dir` turns into a raised `RuntimeError`), or
anything else (symlink, submodule), which the walker skips. -/
inductive NodeE where
  | file (item : JVal) : NodeE
  | other : NodeE
  | dir (bad : Bool) (children : List NodeE) : NodeE

def isDirB : NodeE → Bool
  | NodeE.dir _ _ => true
  | _ => false

/-- The children pushed on the stack: items whose `type` is `"dir"`. -/
def dirsIn (cs : List NodeE) : List NodeE := cs.filter isDirB

/-- The descriptors collected from one listing: items whose `type` is `"file"`. -/
def filesIn (cs : List NodeE) : List JVal :=
  cs.filterMap (fun n =>
    match n with
    | NodeE.file d => some d
    | _ => none)

mutual
def sizeNode : NodeE → Nat
  | NodeE.file _ => 1
  | NodeE.other => 1
  | NodeE.dir _ cs => 1 + sizeForest cs
def sizeForest : List NodeE → Nat
  | [] => 0
  | n :: ns => sizeNode n + sizeForest ns
end

mutual
def filesOfNode : NodeE → List JVal
  | NodeE.file d => [d]
  | NodeE.other => []
  | NodeE.dir _ cs => filesOfForest cs
def filesOfForest : List NodeE → List JVal
  | [] => []
  | n :: ns => filesOfNode n ++ filesOfForest ns
end

mutual
def countFilesNode : NodeE → Nat
  | NodeE.file _ => 1
  | NodeE.other => 0
  | NodeE.dir _ cs => countFilesForest cs
def countFilesForest : List NodeE → Nat
  | [] => 0
  | n :: ns => countFilesNode n + countFilesForest ns
end

mutual
def countDirsNode : NodeE → Nat
  | NodeE.file _ => 0
  | NodeE.other => 0
  | NodeE.dir _ cs => 1 + countDirsForest cs
def countDirsForest : List NodeE → Nat
  | [] => 0
  | n :: ns => countDirsNode n + countDirsForest ns
end

mutual
def goodNode : NodeE → Bool
  | NodeE.file _ => true
  | NodeE.other => true
  | NodeE.dir b cs => !b && goodForest cs
def goodForest : List NodeE → Bool
  | [] => true
  | n :: ns => goodNode n && goodForest ns
end

theorem sizeForest_append (l₁ l₂ : List NodeE) :
    sizeForest (l₁ ++ l₂) = sizeForest l₁ + sizeForest l₂ := by
  induction l₁ with
  | nil => simp [sizeForest]
  | cons n ns ih => simp [sizeForest, ih]; omega

theorem sizeForest_reverse (l : List NodeE) :
    sizeForest l.reverse = sizeForest l := by
  induction l with
  | nil => rfl
  | cons n ns ih => simp [sizeForest, List.reverse_cons, sizeForest_append, ih]; omega

theorem sizeForest_filter_le (p : NodeE → Bool) (l : List NodeE) :
    sizeForest (l.filter p) ≤ sizeForest l := by
  induction l with
  | nil => simp
  | cons n ns ih =>
    by_cases hp : p n
    · simp [List.filter_cons, hp, sizeForest]
      omega
    · simp [List.filter_cons, hp, sizeForest]
      omega

/-- The work loop of `crawl_file_items`.  The stack top is the head (Python
pops from the end and appends there, so children that are directories are
pushed in reverse order); `acc` is the growing `files` list; `pops` counts
the `list_dir` calls made so far.  Popping a well-listed directory expands
it; popping a bad directory raises `list_dir`'s error; popping a file or
other node models `list_dir` on a non-directory path, whose payload is not a
list, which also raises (only the start path can be such a node — children
are pushed only when their type is `"dir"`). -/
def crawlLoop (stack : List NodeE) (acc : List JVal) (pops : Nat) :
    Except Unit (List JVal × Nat) :=
  match stack with
  | [] => Except.ok (acc, pops)
  | NodeE.dir false cs :: rest =>
    crawlLoop ((dirsIn cs).reverse ++ rest) (acc ++ filesIn cs) (pops + 1)
  | NodeE.dir true _ :: _ => Except.error ()
  | NodeE.file _ :: _ => Except.error ()
  | NodeE.other :: _ => Except.error ()
termination_by sizeForest stack
decreasing_by
  have h1 := sizeForest_filter_le isDirB cs
  simp [sizeForest_append, sizeForest_reverse, sizeForest, sizeNode, dirsIn]
  omega

/-- Translates `crawl_file_items(start_path)`: run the work loop on the start node. -/
def crawl_file_items (root : NodeE) : Except Unit (List JVal × Nat) :=
  crawlLoop [root] [] 0

theorem filesOfForest_append (l₁ l₂ : List NodeE) :
    filesOfForest (l₁ ++ l₂) = filesOfForest l₁ ++ filesOfForest l₂ := by
  induction l₁ with
  | nil => rfl
  | cons n ns ih => simp [filesOfForest, ih]

theorem filesOfForest_reverse_perm (l : List NodeE) :
    (filesOfForest l.reverse).Perm (filesOfForest l) := by
  induction l with
  | nil => exact List.Perm.refl _
  | cons n ns ih =>
    rw [List.reverse_cons, filesOfForest_append]
    refine List.perm_append_comm.trans ?_
    refine (ih.append_left (filesOfForest [n])).trans ?_
    have h : filesOfForest [n] ++ filesOfForest ns = filesOfForest (n :: ns) := by
      simp [filesOfForest]
    rw [h]

theorem countDirsForest_append (l₁ l₂ : List NodeE) :
    countDirsForest (l₁ ++ l₂) = countDirsForest l₁ + countDirsForest l₂ := by
  induction l₁ with
  | nil => simp [countDirsForest]
  | cons n ns ih => simp [countDirsForest, ih]; omega

theorem countDirsForest_reverse (l : List NodeE) :
    countDirsForest l.reverse = countDirsForest l := by
  induction l with
  | nil => rfl
  | cons n ns ih =>
    simp [countDirsForest, List.reverse_cons, countDirsForest_append, ih]
    omega

theorem countDirsForest_dirsIn (cs : List NodeE) :
    countDirsForest (dirsIn cs) = countDirsForest cs := by
  induction cs with
  | nil => rfl
  | cons n ns ih =>
    cases n with
    | file d =>
      simp [dirsIn, List.filter_cons, isDirB, countDirsForest, countDirsNode] at ih ⊢
      exact ih
    | other =>
      simp [dirsIn, List.filter_cons, isDirB, countDirsForest, countDirsNode] at ih ⊢
      exact ih
    | dir b ds =>
      simp [dirsIn, List.filter_cons, isDirB, countDirsForest, countDirsNode] at ih ⊢
      omega

theorem filesIn_dirsIn_perm (cs : List NodeE) :
    (filesIn cs ++ filesOfForest (dirsIn cs)).Perm (filesOfForest cs) := by
  induction cs with
  | nil => exact List.Perm.refl _
  | cons n ns ih =>
    cases n with
    | file d =>
      have hf : filesIn (NodeE.file d :: ns) = d :: filesIn ns := by
        simp [filesIn, List.filterMap_cons]
      have hd : dirsIn (NodeE.file d :: ns) = dirsIn ns := by
        simp [dirsIn, List.filter_cons, isDirB]
      have h2 : filesOfForest (NodeE.file d :: ns) = d :: filesOfForest ns := by
        simp [filesOfForest, filesOfNode]
      rw [hf, hd, h2, List.cons_append]
      exact ih.cons d
    | other =>
      have hf : filesIn (NodeE.other :: ns) = filesIn ns := by
        simp [filesIn, List.filterMap_cons]
      have hd : dirsIn (NodeE.other :: ns) = dirsIn ns := by
        simp [dirsIn, List.filter_cons, isDirB]
      have h2 : filesOfForest (NodeE.other :: ns) = filesOfForest ns := by
        simp [filesOfForest, filesOfNode]
      rw [hf, hd, h2]
      exact ih
    | dir b ds =>
      have hf : filesIn (NodeE.dir b ds :: ns) = filesIn ns := by
        simp [filesIn, List.filterMap_cons]
      have hd : dirsIn (NodeE.dir b ds :: ns) = NodeE.dir b ds :: dirsIn ns := by
        simp [dirsIn, List.filter_cons, isDirB]
      have h1 : filesOfForest (NodeE.dir b ds :: dirsIn ns) =
          filesOfForest ds ++ filesOfForest (dirsIn ns) := by
        simp [filesOfForest, filesOfNode]
      have h2 : filesOfForest (NodeE.dir b ds :: ns) =
          filesOfForest ds ++ filesOfForest ns := by
        simp [filesOfForest, filesOfNode]
      rw [hf, hd, h1, h2]
      refine (List.perm_append_comm_assoc _ _ _).trans ?_
      exact List.Perm.append_left _ ih

theorem goodForest_mem (cs : List NodeE) (x : NodeE)
    (hg : goodForest cs = true) (hx : x ∈ cs) : goodNode x = true := by
  induction cs with
  | nil => cases hx
  | cons n ns ih =>
    simp only [goodForest, Bool.and_eq_true] at hg
    rcases List.mem_cons.1 hx with h | h
    · subst h; exact hg.1
    · exact ih hg.2 h

theorem filesOfForest_length (cs : List NodeE) :
    (filesOfForest cs).length = countFilesForest cs := by
  match cs with
  | [] => simp [filesOfForest, countFilesForest]
  | NodeE.file d :: t =>
    simp [filesOfForest, filesOfNode, countFilesForest, countFilesNode,
      filesOfForest_length t]
    omega
  | NodeE.other :: t =>
    simp [filesOfForest, filesOfNode, countFilesForest, countFilesNode,
      filesOfForest_length t]
  | NodeE.dir b ds :: t =>
    simp [filesOfForest, filesOfNode, countFilesForest, countFilesNode,
      filesOfForest_length ds, filesOfForest_length t]
termination_by sizeForest cs
decreasing_by
  all_goals simp [sizeForest, sizeNode]
  all_goals omega

/-- Soundness of the work loop on stacks of well-listed directories: the loop
returns, the collected descriptors are exactly the file leaves below the
stack (a permutation of them, appended to the accumulator), and the number of
`list_dir` calls is exactly the number of directory nodes below the stack
(each directory is listed exactly once). -/
theorem crawlLoop_ok (stack : List NodeE) (acc : List JVal) (pops : Nat)
    (h : ∀ n ∈ stack, ∃ cs, n = NodeE.dir false cs ∧ goodForest cs = true) :
    ∃ res, crawlLoop stack acc pops = Except.ok res ∧
      res.1.Perm (acc ++ filesOfForest stack) ∧
      res.2 = pops + countDirsForest stack := by
  match stack with
  | [] =>
    refine ⟨(acc, pops), by rw [crawlLoop], by simp [filesOfForest],
      by simp [countDirsForest]⟩
  | NodeE.file d :: rest =>
    obtain ⟨ds, hds, -⟩ := h _ (List.mem_cons_self _ _)
    cases hds
  | NodeE.other :: rest =>
    obtain ⟨ds, hds, -⟩ := h _ (List.mem_cons_self _ _)
    cases hds
  | NodeE.dir true cs :: rest =>
    obtain ⟨ds, hds, -⟩ := h _ (List.mem_cons_self _ _)
    cases hds
  | NodeE.dir false cs :: rest =>
    have hg : goodForest cs = true := by
      obtain ⟨ds, hds, hgd⟩ := h _ (List.mem_cons_self _ _)
      cases hds
      exact hgd
    have hrest : ∀ x ∈ rest, ∃ ds, x = NodeE.dir false ds ∧ goodForest ds = true :=
      fun x hx => h x (List.mem_cons_of_mem _ hx)
    have hnew : ∀ x ∈ (dirsIn cs).reverse ++ rest,
        ∃ ds, x = NodeE.dir false ds ∧ goodForest ds = true := by
      intro x hx
      rcases List.mem_append.1 hx with hx | hx
      · have hx' : x ∈ dirsIn cs := List.mem_reverse.1 hx
        have hxd : isDirB x = true := List.of_mem_filter hx'
        have hxm : x ∈ cs := List.mem_of_mem_filter hx'
        have hgood : goodNode x = true := goodForest_mem cs x hg hxm
        cases x with
        | file d => cases hxd
        | other => cases hxd
        | dir b ds =>
          simp only [goodNode, Bool.and_eq_true, Bool.not_eq_true'] at hgood
          exact ⟨ds, by rw [hgood.1], hgood.2⟩
      · exact hrest x hx
    obtain ⟨res, heq, hperm, hpops⟩ :=
      crawlLoop_ok ((dirsIn cs).reverse ++ rest) (acc ++ filesIn cs) (pops + 1) hnew
    refine ⟨res, ?_, ?_, ?_⟩
    · rw [crawlLoop]
      exact heq
    · refine hperm.trans ?_
      rw [filesOfForest_append]
      refine (List.Perm.append_left _
        ((filesOfForest_reverse_perm (dirsIn cs)).append_right _)).trans ?_
      have hassoc : (acc ++ filesIn cs) ++
          (filesOfForest (dirsIn cs) ++ filesOfForest rest) =
          acc ++ ((filesIn cs ++ filesOfForest (dirsIn cs)) ++
            filesOfForest rest) := by simp
      rw [hassoc]
      refine (List.Perm.append_left acc
        ((filesIn_dirsIn_perm cs).append_right _)).trans ?_
      have hval : filesOfForest cs ++ filesOfForest rest =
          filesOfForest (NodeE.dir false cs :: rest) := by
        simp [filesOfForest, filesOfNode]
      rw [hval]
    · rw [hpops, countDirsForest_append, countDirsForest_reverse,
        countDirsForest_dirsIn]
      simp [countDirsForest, countDirsNode]
      omega
termination_by sizeForest stack
decreasing_by
  have h1 := sizeForest_filter_le isDirB cs
  simp [sizeForest_append, sizeForest_reverse, sizeForest, sizeNode, dirsIn]
  omega

/-- Claim C4: for every finite acyclic directory tree (modelled as a start
directory whose reachable listings are all well-formed), the walker
terminates with a result: the descriptors it returns are exactly the file
leaves of the tree, each visited exactly once (a permutation), their number
equals the number of leaf file nodes, and the number of directory listings
made is one per directory (the start plus each subdirectory exactly once);
children that are neither files nor directories contribute nothing. -/
theorem crawl_file_items_spec (cs : List NodeE) (hg : goodForest cs = true) :
    ∃ res, crawl_file_items (NodeE.dir false cs) = Except.ok res ∧
      res.1.Perm (filesOfForest cs) ∧
      res.1.length = countFilesForest cs ∧
      res.2 = 1 + countDirsForest cs := by
  obtain ⟨res, heq, hperm, hpops⟩ := crawlLoop_ok [NodeE.dir false cs] [] 0
    (by
      intro n hn
      rcases List.mem_cons.1 hn with h | h
      · exact ⟨cs, h, hg⟩
      · cases h)
  have hlist : filesOfForest [NodeE.dir false cs] = filesOfForest cs := by
    simp [filesOfForest, filesOfNode]
  have hperm' : res.1.Perm (filesOfForest cs) := by
    rw [hlist] at hperm
    simpa using hperm
  refine ⟨res, heq, hperm', ?_, ?_⟩
  · rw [hperm'.length_eq, filesOfForest_length]
  · rw [hpops]
    simp [countDirsForest, countDirsNode]

/-- A small concrete tree: two files, one subdirectory, one skipped child. -/
def witC4forest : List NodeE :=
  [NodeE.file (JVal.str "f1"),
   NodeE.dir false [NodeE.file (JVal.str "f2"), NodeE.other]]

theorem crawl_file_items_spec_witness :
    ∃ res, crawl_file_items (NodeE.dir false witC4forest) = Except.ok res ∧
      res.1.Perm (filesOfForest witC4forest) ∧
      res.1.length = 2 ∧ res.2 = 2 := by
  obtain ⟨res, h1, h2, h3, h4⟩ := crawl_file_items_spec witC4forest
    (by simp [witC4forest, goodForest, goodNode])
  refine ⟨res, h1, h2, ?_, ?_⟩
  · rw [h3]
    simp [witC4forest, countFilesForest, countFilesNode]
  · rw [h4]
    simp [witC4forest, countDirsForest, countDirsNode]

/-- An HTTP response as `api_get` inspects it: the status code, the
`X-RateLimit-Remaining` header (a string, compared verbatim against "0"),
and the `X-RateLimit-Reset` header (kept as the integer the code parses;
a missing header defaults to 0). -/
structure Resp where
  status : Nat
  remaining : Option String
  reset : Option Int

/-- Models `resp.raise_for_status()`, which raises exactly for 4xx and 5xx statuses. -/
def httpFailure (r : Resp) : Bool :=
  decide (400 ≤ r.status) && decide (r.status < 600)

/-- The rate-limit test of `api_get`:
`resp.status_code == 403 and resp.headers.get("X-RateLimit-Remaining") == "0"`. -/
def rateLimited (r : Resp) : Bool :=
  r.status == 403 && r.remaining == some "0"

/-- What one `api_get` call did: its outcome (the response, or the status it
raised for), every sleep it performed, and how many HTTP GETs it issued. -/
structure ApiResult where
  result : Except Nat Resp
  sleeps : List Int
  calls : Nat

/-- Translates `api_get(url, params)` from the source, with the two successive network
responses (first attempt, retry) and the current clock supplied as values:
on a 403 with the remaining header reading "0" it sleeps
`max(1, reset - now + 2)` and retries once, then `raise_for_status` applies
to whichever response is current. -/
def api_get (r1 r2 : Resp) (now : Int) : ApiResult :=
  if rateLimited r1 then
    let sleep_for := max 1 (r1.reset.getD 0 - now + 2)
    if httpFailure r2 then
      { result := Except.error r2.status, sleeps := [sleep_for], calls := 2 }
    else
      { result := Except.ok r2, sleeps := [sleep_for], calls := 2 }
  else if httpFailure r1 then
    { result := Except.error r1.status, sleeps := [], calls := 1 }
  else
    { result := Except.ok r1, sleeps := [], calls := 1 }

/-- Claim C5: a forbidden (403) response whose rate-limit-remaining header
reads zero makes the fetcher sleep `max(1, reset - now + 2)` seconds and
retry exactly once (two calls, one sleep), raising if the retry fails too;
any other failure status raises immediately with no retry and no sleep; and
no execution ever makes more than two calls or more than one sleep. -/
theorem api_get_retry_policy (r1 r2 : Resp) (now : Int) :
    (rateLimited r1 = true →
      (api_get r1 r2 now).sleeps = [max 1 (r1.reset.getD 0 - now + 2)] ∧
      (api_get r1 r2 now).calls = 2 ∧
      (httpFailure r2 = true →
        (api_get r1 r2 now).result = Except.error r2.status) ∧
      (httpFailure r2 = false → (api_get r1 r2 now).result = Except.ok r2)) ∧
    (rateLimited r1 = false → httpFailure r1 = true →
      (api_get r1 r2 now).result = Except.error r1.status ∧
      (api_get r1 r2 now).calls = 1 ∧
      (api_get r1 r2 now).sleeps = []) ∧
    (api_get r1 r2 now).calls ≤ 2 ∧
    (api_get r1 r2 now).sleeps.length ≤ 1 := by
  by_cases hrl : rateLimited r1 <;>
    by_cases h1 : httpFailure r1 <;>
      by_cases h2 : httpFailure r2 <;>
        simp [api_get, hrl, h1, h2]

theorem api_get_retry_policy_witness :
    (api_get ⟨403, some "0", some 100⟩ ⟨500, none, none⟩ 50).sleeps = [52] ∧
    (api_get ⟨403, some "0", some 100⟩ ⟨500, none, none⟩ 50).calls = 2 ∧
    (api_get ⟨403, some "0", some 100⟩ ⟨500, none, none⟩ 50).result =
      Except.error 500 ∧
    (api_get ⟨404, none, none⟩ ⟨500, none, none⟩ 0).result = Except.error 404 ∧
    (api_get ⟨404, none, none⟩ ⟨500, none, none⟩ 0).calls = 1 ∧
    (api_get ⟨404, none, none⟩ ⟨500, none, none⟩ 0).sleeps = [] := by
  have ha := (api_get_retry_policy ⟨403, some "0", some 100⟩ ⟨500, none, none⟩ 50).1
    (by decide)
  have hb := ((api_get_retry_policy ⟨404, none, none⟩ ⟨500, none, none⟩ 0).2.1
    (by decide) (by decide))
  refine ⟨?_, ha.2.1, ha.2.2.1 (by decide), hb.1, hb.2.1, hb.2.2⟩
  rw [ha.1]
  decide

/-- Models `path.endswith(suffix)`. -/
def pyEndsWith (s suffix : String) : Bool :=
  suffix.toList.isSuffixOf s.toList

/-- The characters of the last `/`-separated component of a path — what
`pathlib` calls the name, for the plain relative file paths the contents API
returns. -/
def lastCompChars (cs : List Char) : List Char :=
  (cs.reverse.takeWhile (fun c => c != '/')).reverse

/-- CPython's `PurePath.stem` on a file name: drop the rightmost dot suffix
when that dot is neither the first nor the last character of the name, else
keep the name whole. -/
def stemChars (nm : List Char) : List Char :=
  if (nm.reverse.dropWhile (fun c => c != '.')).isEmpty then nm
  else if ((nm.reverse.dropWhile (fun c => c != '.')).drop 1).isEmpty
      || (nm.reverse.takeWhile (fun c => c != '.')).isEmpty then nm
  else ((nm.reverse.dropWhile (fun c => c != '.')).drop 1).reverse

/-- Models `Path(path).stem`: the stem of the path's last component. -/
def pathStem (path : String) : String :=
  String.mk (stemChars (lastCompChars path.toList))

theorem stemChars_append_json (u : List Char) :
    stemChars (u ++ ['.', 'j', 's', 'o', 'n']) ≠ [] := by
  have hrev : (u ++ ['.', 'j', 's', 'o', 'n']).reverse =
      'n' :: 'o' :: 's' :: 'j' :: '.' :: u.reverse := by
    rw [List.reverse_append,
      show (['.', 'j', 's', 'o', 'n'] : List Char).reverse =
        ['n', 'o', 's', 'j', '.'] from rfl]
    rfl
  have c1 : ('n' != '.') = true := by decide
  have c2 : ('o' != '.') = true := by decide
  have c3 : ('s' != '.') = true := by decide
  have c4 : ('j' != '.') = true := by decide
  have c5 : ('.' != '.') = false := by decide
  have hdrop : List.dropWhile (fun c => c != '.')
      ('n' :: 'o' :: 's' :: 'j' :: '.' :: u.reverse) = '.' :: u.reverse := by
    simp [List.dropWhile_cons, c1, c2, c3, c4, c5]
  have htake : List.takeWhile (fun c => c != '.')
      ('n' :: 'o' :: 's' :: 'j' :: '.' :: u.reverse) = ['n', 'o', 's', 'j'] := by
    simp [List.takeWhile_cons, c1, c2, c3, c4, c5]
  unfold stemChars
  rw [hrev, hdrop, htake]
  by_cases hu : u = []
  · subst hu
    simp
  · have hur : u.reverse ≠ [] := by simpa using hu
    simp [List.isEmpty_iff, hur, hu]

theorem pathStem_ne_empty (p : String) (h : pyEndsWith p ".json" = true) :
    pathStem p ≠ "" := by
  unfold pyEndsWith at h
  have hsuf : ".json".toList <:+ p.toList := List.isSuffixOf_iff_suffix.mp h
  obtain ⟨t, ht⟩ := hsuf
  have hjson : ".json".toList = ['.', 'j', 's', 'o', 'n'] := by decide
  rw [hjson] at ht
  unfold pathStem lastCompChars
  rw [← ht]
  have hrev : (t ++ ['.', 'j', 's', 'o', 'n']).reverse =
      'n' :: 'o' :: 's' :: 'j' :: '.' :: t.reverse := by
    rw [List.reverse_append,
      show (['.', 'j', 's', 'o', 'n'] : List Char).reverse =
        ['n', 'o', 's', 'j', '.'] from rfl]
    rfl
  have s1 : ('n' != '/') = true := by decide
  have s2 : ('o' != '/') = true := by decide
  have s3 : ('s' != '/') = true := by decide
  have s4 : ('j' != '/') = true := by decide
  have s5 : ('.' != '/') = true := by decide
  have htw : List.takeWhile (fun c => c != '/')
      ('n' :: 'o' :: 's' :: 'j' :: '.' :: t.reverse) =
      'n' :: 'o' :: 's' :: 'j' :: '.' ::
        List.takeWhile (fun c => c != '/') t.reverse := by
    simp [List.takeWhile_cons, s1, s2, s3, s4, s5]
  rw [hrev, htw]
  have hshape : ('n' :: 'o' :: 's' :: 'j' :: '.' ::
      List.takeWhile (fun c => c != '/') t.reverse).reverse =
      (List.takeWhile (fun c => c != '/') t.reverse).reverse ++
        ['.', 'j', 's', 'o', 'n'] := by
    rw [show ('n' :: 'o' :: 's' :: 'j' :: '.' ::
        List.takeWhile (fun c => c != '/') t.reverse) =
        ['n', 'o', 's', 'j', '.'] ++
          List.takeWhile (fun c => c != '/') t.reverse from rfl,
      List.reverse_append,
      show (['n', 'o', 's', 'j', '.'] : List Char).reverse =
        ['.', 'j', 's', 'o', 'n'] from rfl]
  rw [hshape]
  have hne := stemChars_append_json
    (List.takeWhile (fun c => c != '/') t.reverse).reverse
  intro hcontra
  apply hne
  have hdata := congrArg String.toList hcontra
  simpa using hdata

/-- A catalog entry as `main` assembles it (one element of `services`). -/
structure Entry where
  name : JVal
  displayName : JVal
  description : JVal
  link : JVal
  deprecated : Bool
  deprecationMessage : Option String
  deprecationDate : Option String
  path : String
  sha : JVal
  raw_url : JVal
  html_url : JVal

/-- The binding a dict holds for `k`, distinguishing a missing key (`none`)
from a stored null. -/
def jfind (f : JVal) (k : String) : Option JVal :=
  match f with
  | JVal.obj fs => (fs.find? (fun kv => kv.1 == k)).map (fun kv => kv.2)
  | _ => none

/-- Models `path = f.get("path", "")` followed by `path.endswith(...)`: the default
"" applies only when the key is missing; a present non-string value (a null
included) makes `path.endswith` raise `AttributeError` outside the per-file
`try`, aborting the run. -/
def pathOfItem (f : JVal) : Except Unit String :=
  match jfind f "path" with
  | none => Except.ok ""
  | some (JVal.str s) => Except.ok s
  | some _ => Except.error ()

/-- The entry construction of `main`'s loop body once the document is parsed:
`service_obj.get(...)` raises on a non-dict document (a JSON array or
scalar), the name falls back to `Path(path).stem` when the document's name is
falsy, the link comes from `pick_best_link` (which can raise), and the
deprecation triple from `aggregate_deprecation`. -/
def buildEntry (f : JVal) (path : String) (svc : JVal) : Except Unit Entry :=
  match svc with
  | JVal.obj _ =>
    match pick_best_link svc (jget f "html_url") with
    | Except.error _ => Except.error ()
    | Except.ok link =>
      Except.ok
        { name := if pyTruthy (jget svc "name") then jget svc "name"
                  else JVal.str (pathStem path)
          displayName := jget svc "displayName"
          description := jget svc "description"
          link := link
          deprecated := (aggregate_deprecation svc).1
          deprecationMessage := (aggregate_deprecation svc).2.1
          deprecationDate := (aggregate_deprecation svc).2.2
          path := path
          sha := jget f "sha"
          raw_url := jget f "download_url"
          html_url := jget f "html_url" }
  | _ => Except.error ()

/-- The `try` block of the loop body: download the raw content, parse it as
JSON, build the entry; any raised error is the per-file failure the handler
counts. -/
def tryBuild (download : JVal → Except Unit String)
    (parse : String → Except Unit JVal) (f : JVal) (path : String) :
    Except Unit Entry :=
  match download (jget f "download_url") with
  | Except.error _ => Except.error ()
  | Except.ok content =>
    match parse content with
    | Except.error _ => Except.error ()
    | Except.ok svc => buildEntry f path svc

/-- One iteration of `main`'s loop over the crawled items, up to the
accumulator updates: `Except.error` is an abort of the whole run (non-dict
item or non-string path, both outside the `try`), `Except.ok none` a silent
skip (non-.json path, or falsy download or html URL), and `Except.ok (some r)`
an attempted entry whose inner result the handler inspects. -/
def processItem (download : JVal → Except Unit String)
    (parse : String → Except Unit JVal) (f : JVal) :
    Except Unit (Option (Except Unit Entry)) :=
  match f with
  | JVal.obj _ =>
    match pathOfItem f with
    | Except.error _ => Except.error ()
    | Except.ok path =>
      if !pyEndsWith path ".json" then Except.ok none
      else if !pyTruthy (jget f "download_url") || !pyTruthy (jget f "html_url")
        then Except.ok none
      else Except.ok (some (tryBuild download parse f path))
  | _ => Except.error ()

/-- The loop of `main` over the crawled file items, with the `entries` list
and the `errors` counter threaded: a successful build appends its entry, a
caught per-file failure increments the counter, a skip touches neither. -/
def processLoop (download : JVal → Except Unit String)
    (parse : String → Except Unit JVal) :
    List JVal → List Entry → Nat → Except Unit (List Entry × Nat)
  | [], acc, errs => Except.ok (acc, errs)
  | f :: rest, acc, errs =>
    match processItem download parse f with
    | Except.error _ => Except.error ()
    | Except.ok none => processLoop download parse rest acc errs
    | Except.ok (some (Except.ok e)) =>
      processLoop download parse rest (acc ++ [e]) errs
    | Except.ok (some (Except.error _)) =>
      processLoop download parse rest acc (errs + 1)

/-- The whole per-file phase of `main`, started with empty accumulators. -/
def processFiles (download : JVal → Except Unit String)
    (parse : String → Except Unit JVal) (files : List JVal) :
    Except Unit (List Entry × Nat) :=
  processLoop download parse files [] 0

/-- Translates `get_branch_head_sha()`: the refs call and its JSON decoding are the
supplied outcome; any raised exception is swallowed to `None` (null), and so
are a non-dict payload, a missing or non-dict `object` field (either the
`{}` default or the caught `AttributeError`); otherwise the `sha` value, or
null when absent. -/
def get_branch_head_sha (refsResp : Except Unit JVal) : JVal :=
  match refsResp with
  | Except.error _ => JVal.null
  | Except.ok data =>
    match data with
    | JVal.obj _ =>
      match jget data "object" with
      | JVal.obj _ => jget (jget data "object") "sha"
      | _ => JVal.null
    | _ => JVal.null

/-- The output document (the fixed `generated_at_utc` timestamp and the
constant source coordinates are omitted; `head_sha` is the nullable field
`source.head_sha`). -/
structure Catalog where
  head_sha : JVal
  count : Nat
  errors : Nat
  services : List Entry

/-- Translates `main()`: fetch the head SHA (never aborts), crawl the tree (a structural
error aborts everything), process every file, and only then assemble and
write the catalog — the returned `Except.ok` value is the single write of the
run, an `Except.error` is an aborted run that wrote nothing. -/
def mainFn (refsResp : Except Unit JVal) (root : NodeE)
    (download : JVal → Except Unit String)
    (parse : String → Except Unit JVal) : Except Unit Catalog :=
  let head_sha := get_branch_head_sha refsResp
  match crawl_file_items root with
  | Except.error _ => Except.error ()
  | Except.ok (files, _pops) =>
    match processFiles download parse files with
    | Except.error _ => Except.error ()
    | Except.ok (entries, errors) =>
      Except.ok { head_sha := head_sha, count := entries.length,
                  errors := errors, services := entries }

/-- An item whose attempted processing raised a caught per-file error. -/
def isFailureItem (download : JVal → Except Unit String)
    (parse : String → Except Unit JVal) (f : JVal) : Bool :=
  match processItem download parse f with
  | Except.ok (some (Except.error _)) => true
  | _ => false

/-- The entry an item contributes, when its processing succeeds. -/
def okEntryOf (download : JVal → Except Unit String)
    (parse : String → Except Unit JVal) (f : JVal) : Option Entry :=
  match processItem download parse f with
  | Except.ok (some (Except.ok e)) => some e
  | _ => none

theorem processLoop_spec (download : JVal → Except Unit String)
    (parse : String → Except Unit JVal) (files : List JVal) :
    ∀ (acc : List Entry) (errs : Nat) (res : List Entry × Nat),
    processLoop download parse files acc errs = Except.ok res →
    res.2 = errs + files.countP (isFailureItem download parse) ∧
    res.1 = acc ++ files.filterMap (okEntryOf download parse) := by
  induction files with
  | nil =>
    intro acc errs res h
    simp [processLoop] at h
    simp [← h]
  | cons f rest ih =>
    intro acc errs res h
    cases hpi : processItem download parse f with
    | error u => simp [processLoop, hpi] at h
    | ok o =>
      cases o with
      | none =>
        simp only [processLoop, hpi] at h
        have hfail : isFailureItem download parse f = false := by
          simp [isFailureItem, hpi]
        have hok : okEntryOf download parse f = none := by
          simp [okEntryOf, hpi]
        have := ih _ _ _ h
        simp [List.countP_cons, List.filterMap_cons, hfail, hok, this.1, this.2]
      | some r =>
        cases r with
        | ok e =>
          simp only [processLoop, hpi] at h
          have hfail : isFailureItem download parse f = false := by
            simp [isFailureItem, hpi]
          have hok : okEntryOf download parse f = some e := by
            simp [okEntryOf, hpi]
          have := ih _ _ _ h
          simp [List.countP_cons, List.filterMap_cons, hfail, hok, this.1, this.2]
        | error u =>
          simp only [processLoop, hpi] at h
          have hfail : isFailureItem download parse f = true := by
            simp [isFailureItem, hpi]
          have hok : okEntryOf download parse f = none := by
            simp [okEntryOf, hpi]
          have := ih _ _ _ h
          refine ⟨?_, by simp [List.filterMap_cons, hok, this.2]⟩
          rw [this.1, List.countP_cons, hfail]
          simp
          omega

theorem processLoop_total (download : JVal → Except Unit String)
    (parse : String → Except Unit JVal) (files : List JVal) :
    ∀ (acc : List Entry) (errs : Nat),
    (∀ f ∈ files, processItem download parse f ≠ Except.error ()) →
    ∃ res, processLoop download parse files acc errs = Except.ok res := by
  induction files with
  | nil =>
    intro acc errs _
    exact ⟨(acc, errs), by simp [processLoop]⟩
  | cons f rest ih =>
    intro acc errs h
    have hf := h f (List.mem_cons_self _ _)
    have hrest : ∀ x ∈ rest, processItem download parse x ≠ Except.error () :=
      fun x hx => h x (List.mem_cons_of_mem _ hx)
    cases hpi : processItem download parse f with
    | error u =>
      cases u
      exact absurd hpi hf
    | ok o =>
      cases o with
      | none =>
        obtain ⟨res, hres⟩ := ih acc errs hrest
        exact ⟨res, by simp [processLoop, hpi, hres]⟩
      | some r =>
        cases r with
        | ok e =>
          obtain ⟨res, hres⟩ := ih (acc ++ [e]) errs hrest
          exact ⟨res, by simp [processLoop, hpi, hres]⟩
        | error u =>
          obtain ⟨res, hres⟩ := ih acc (errs + 1) hrest
          exact ⟨res, by simp [processLoop, hpi, hres]⟩

/-- Claim C6: a per-file failure (download or parse failure, or any raised
error inside the per-file `try`) increments the error counter by exactly one
and contributes no entry, while the run continues — later files are still
processed, every file's fate is accounted independently, the loop returns
whenever no file aborts it structurally, and the final catalog's `errors`
field equals the number of files that failed this way (and its `services`
exactly the successful entries, in order). -/
theorem per_file_error_accounting :
    (∀ download parse files acc errs res,
      processLoop download parse files acc errs = Except.ok res →
        res.2 = errs + files.countP (isFailureItem download parse) ∧
        res.1 = acc ++ files.filterMap (okEntryOf download parse)) ∧
    (∀ download parse files acc errs,
      (∀ f ∈ files, processItem download parse f ≠ Except.error ()) →
      ∃ res, processLoop download parse files acc errs = Except.ok res) ∧
    (∀ refs root download parse cat,
      mainFn refs root download parse = Except.ok cat →
      ∃ files pops, crawl_file_items root = Except.ok (files, pops) ∧
        cat.errors = files.countP (isFailureItem download parse) ∧
        cat.services = files.filterMap (okEntryOf download parse)) := by
  refine ⟨fun download parse files => processLoop_spec download parse files,
    fun download parse files => processLoop_total download parse files, ?_⟩
  intro refs root download parse cat h
  cases hc : crawl_file_items root with
  | error u => simp [mainFn, hc] at h
  | ok pr =>
    obtain ⟨files, pops⟩ := pr
    cases hp : processFiles download parse files with
    | error u => simp [mainFn, hc, hp] at h
    | ok epr =>
      obtain ⟨entries, errors⟩ := epr
      simp only [mainFn, hc, hp, Except.ok.injEq] at h
      obtain ⟨h1, h2⟩ := processLoop_spec download parse files [] 0 _ hp
      refine ⟨files, pops, rfl, ?_, ?_⟩
      · rw [← h]
        simpa using h1
      · rw [← h]
        simpa using h2

/-- A crawled item that will process cleanly. -/
def fgoodW : JVal :=
  JVal.obj [("path", JVal.str "a.json"), ("download_url", JVal.str "u"),
            ("html_url", JVal.str "h")]

/-- A crawled item whose download fails. -/
def fbadW : JVal :=
  JVal.obj [("path", JVal.str "b.json"), ("download_url", JVal.str "x"),
            ("html_url", JVal.str "h")]

/-- A downloader that fails exactly on the URL "x". -/
def dlW : JVal → Except Unit String := fun v =>
  match v with
  | JVal.str s => if s == "x" then Except.error () else Except.ok "content"
  | _ => Except.error ()

/-- A parser that yields the empty JSON object. -/
def psW : String → Except Unit JVal := fun _ => Except.ok (JVal.obj [])

/-- The entry `fgoodW` produces under `dlW`/`psW`. -/
def entryW : Entry :=
  { name := JVal.str "a", displayName := JVal.null, description := JVal.null,
    link := JVal.str "h", deprecated := false, deprecationMessage := none,
    deprecationDate := none, path := "a.json", sha := JVal.null,
    raw_url := JVal.str "u", html_url := JVal.str "h" }

theorem per_file_error_accounting_witness :
    ([entryW], 1).2 = 0 + [fgoodW, fbadW].countP (isFailureItem dlW psW) ∧
    ([entryW], 1).1 = [] ++ [fgoodW, fbadW].filterMap (okEntryOf dlW psW) :=
  per_file_error_accounting.1 dlW psW [fgoodW, fbadW] [] 0 ([entryW], 1) rfl

/-- Claim C7: the output is produced exactly once per run, at the end, from
the fully accumulated catalog — a successful run's single write carries the
services of every crawled file and the matching count, while a structural
error (a directory-listing call returning a non-list payload, which raises)
aborts the run with no output at all. -/
theorem output_write_once (refs : Except Unit JVal) (root : NodeE)
    (download : JVal → Except Unit String)
    (parse : String → Except Unit JVal) :
    (crawl_file_items root = Except.error () →
      mainFn refs root download parse = Except.error ()) ∧
    (∀ cat, mainFn refs root download parse = Except.ok cat →
      ∃ files pops, crawl_file_items root = Except.ok (files, pops) ∧
        processFiles download parse files =
          Except.ok (cat.services, cat.errors) ∧
        cat.count = cat.services.length) := by
  constructor
  · intro hc
    simp [mainFn, hc]
  · intro cat h
    cases hc : crawl_file_items root with
    | error u => simp [mainFn, hc] at h
    | ok pr =>
      obtain ⟨files, pops⟩ := pr
      cases hp : processFiles download parse files with
      | error u => simp [mainFn, hc, hp] at h
      | ok epr =>
        obtain ⟨entries, errors⟩ := epr
        simp only [mainFn, hc, hp, Except.ok.injEq] at h
        subst h
        exact ⟨files, pops, rfl, hp, rfl⟩

theorem output_write_once_witness :
    mainFn (Except.error ()) (NodeE.dir true []) dlW psW = Except.error () ∧
    ∃ files pops, crawl_file_items (NodeE.dir false []) =
        Except.ok (files, pops) ∧
      processFiles dlW psW files =
        Except.ok ((⟨JVal.null, 0, 0, []⟩ : Catalog).services,
          (⟨JVal.null, 0, 0, []⟩ : Catalog).errors) ∧
      (⟨JVal.null, 0, 0, []⟩ : Catalog).count =
        (⟨JVal.null, 0, 0, []⟩ : Catalog).services.length := by
  constructor
  · exact (output_write_once (Except.error ()) (NodeE.dir true []) dlW psW).1
      (by simp [crawl_file_items, crawlLoop])
  · exact (output_write_once (Except.error ()) (NodeE.dir false []) dlW psW).2
      ⟨JVal.null, 0, 0, []⟩
      (by simp [mainFn, crawl_file_items, crawlLoop, dirsIn, filesIn,
        processFiles, processLoop, get_branch_head_sha])

/-- Claim C8: a crawled item whose path does not end in ".json", or whose
download or html URL is missing or falsy, is skipped silently: its processing
is `Except.ok none` under every downloader and parser (so nothing is
downloaded and no error is counted), and the loop's result over it is
exactly the loop's result over the remaining items. -/
theorem skip_non_json_or_missing_urls (download : JVal → Except Unit String)
    (parse : String → Except Unit JVal) (gs : List (String × JVal))
    (rest : List JVal) (acc : List Entry) (errs : Nat) (p : String)
    (hp : pathOfItem (JVal.obj gs) = Except.ok p)
    (h : pyEndsWith p ".json" = false ∨
      pyTruthy (jget (JVal.obj gs) "download_url") = false ∨
      pyTruthy (jget (JVal.obj gs) "html_url") = false) :
    (∀ (dl' : JVal → Except Unit String) (ps' : String → Except Unit JVal),
      processItem dl' ps' (JVal.obj gs) = Except.ok none) ∧
    processLoop download parse (JVal.obj gs :: rest) acc errs =
      processLoop download parse rest acc errs := by
  have hpi : ∀ (dl' : JVal → Except Unit String)
      (ps' : String → Except Unit JVal),
      processItem dl' ps' (JVal.obj gs) = Except.ok none := by
    intro dl' ps'
    simp only [processItem, hp]
    rcases h with h | h | h
    · simp [h]
    · by_cases hj : pyEndsWith p ".json" <;> simp [hj, h]
    · by_cases hj : pyEndsWith p ".json" <;>
        by_cases hd : pyTruthy (jget (JVal.obj gs) "download_url") <;>
          simp [hj, hd, h]
  exact ⟨hpi, by simp [processLoop, hpi download parse]⟩

theorem skip_non_json_or_missing_urls_witness :
    (∀ (dl' : JVal → Except Unit String) (ps' : String → Except Unit JVal),
      processItem dl' ps' (JVal.obj [("path", JVal.str "readme.md")]) =
        Except.ok none) ∧
    processLoop dlW psW (JVal.obj [("path", JVal.str "readme.md")] :: []) [] 0 =
      processLoop dlW psW [] [] 0 :=
  skip_non_json_or_missing_urls dlW psW [("path", JVal.str "readme.md")]
    [] [] 0 "readme.md" rfl (Or.inl (by decide))

/-- Whether a run completed (and thus wrote its catalog). -/
def exceptOk {α : Type} (e : Except Unit α) : Bool :=
  match e with
  | Except.ok _ => true
  | Except.error _ => false

/-- Claim C9: fetching the branch head SHA never aborts the run — a raised
refs call yields null, a payload without the expected `object` field yields
null, whether the run completes does not depend on the refs outcome at all,
and a run completed under a failed refs call writes its catalog with
`head_sha` null. -/
theorem head_sha_never_aborts (refs : Except Unit JVal) (root : NodeE)
    (download : JVal → Except Unit String)
    (parse : String → Except Unit JVal) :
    get_branch_head_sha (Except.error ()) = JVal.null ∧
    (∀ d : JVal, jget d "object" = JVal.null →
      get_branch_head_sha (Except.ok d) = JVal.null) ∧
    exceptOk (mainFn (Except.error ()) root download parse) =
      exceptOk (mainFn refs root download parse) ∧
    (∀ cat, mainFn (Except.error ()) root download parse = Except.ok cat →
      cat.head_sha = JVal.null) := by
  refine ⟨rfl, ?_, ?_, ?_⟩
  · intro d hd
    cases d <;> simp [get_branch_head_sha, hd]
  · cases hc : crawl_file_items root with
    | error u => simp [mainFn, hc, exceptOk]
    | ok pr =>
      obtain ⟨files, pops⟩ := pr
      cases hp : processFiles download parse files with
      | error u => simp [mainFn, hc, hp, exceptOk]
      | ok epr =>
        obtain ⟨entries, errors⟩ := epr
        simp [mainFn, hc, hp, exceptOk]
  · intro cat h
    cases hc : crawl_file_items root with
    | error u => simp [mainFn, hc] at h
    | ok pr =>
      obtain ⟨files, pops⟩ := pr
      cases hp : processFiles download parse files with
      | error u => simp [mainFn, hc, hp] at h
      | ok epr =>
        obtain ⟨entries, errors⟩ := epr
        simp only [mainFn, hc, hp, Except.ok.injEq] at h
        subst h
        rfl

theorem head_sha_never_aborts_witness :
    get_branch_head_sha (Except.error ()) = JVal.null ∧
    get_branch_head_sha (Except.ok (JVal.obj [])) = JVal.null ∧
    exceptOk (mainFn (Except.error ()) (NodeE.dir false []) dlW psW) =
      exceptOk (mainFn (Except.ok (JVal.obj [])) (NodeE.dir false []) dlW psW) ∧
    (⟨JVal.null, 0, 0, []⟩ : Catalog).head_sha = JVal.null := by
  have H := head_sha_never_aborts (Except.ok (JVal.obj []))
    (NodeE.dir false []) dlW psW
  exact ⟨H.1, H.2.1 (JVal.obj []) rfl, H.2.2.1,
    H.2.2.2 ⟨JVal.null, 0, 0, []⟩
      (by simp [mainFn, crawl_file_items, crawlLoop, dirsIn, filesIn,
        processFiles, processLoop, get_branch_head_sha])⟩

theorem pyTruthy_ne (v : JVal) (h : pyTruthy v = true) :
    v ≠ JVal.null ∧ v ≠ JVal.str "" := by
  refine ⟨fun hv => ?_, fun hv => ?_⟩ <;> subst hv <;>
    exact absurd h (by decide)

theorem processItem_name_ok (download : JVal → Except Unit String)
    (parse : String → Except Unit JVal) (f : JVal) (e : Entry)
    (h : processItem download parse f = Except.ok (some (Except.ok e))) :
    e.name ≠ JVal.null ∧ e.name ≠ JVal.str "" := by
  cases f with
  | obj gs =>
    simp only [processItem] at h
    cases hp : pathOfItem (JVal.obj gs) with
    | error u => simp [hp] at h
    | ok path =>
      simp only [hp] at h
      by_cases hj : pyEndsWith path ".json"
      · simp only [hj, Bool.not_true, if_false] at h
        by_cases hu : (!pyTruthy (jget (JVal.obj gs) "download_url") ||
            !pyTruthy (jget (JVal.obj gs) "html_url")) = true
        · simp [hu] at h
        · simp [hu] at h
          unfold tryBuild at h
          cases hdl : download (jget (JVal.obj gs) "download_url") with
          | error u => simp [hdl] at h
          | ok content =>
            simp only [hdl] at h
            cases hps : parse content with
            | error u => simp [hps] at h
            | ok svc =>
              simp only [hps] at h
              unfold buildEntry at h
              cases svc with
              | obj ss =>
                cases hl : pick_best_link (JVal.obj ss)
                    (jget (JVal.obj gs) "html_url") with
                | error u => simp [hl] at h
                | ok link =>
                  simp only [hl, Except.ok.injEq] at h
                  subst h
                  by_cases ht : pyTruthy (jget (JVal.obj ss) "name") = true
                  · simpa [ht] using pyTruthy_ne _ ht
                  · simp only [Bool.not_eq_true] at ht
                    simp only [ht, if_false]
                    refine ⟨by simp, ?_⟩
                    intro hcontra
                    exact pathStem_ne_empty path hj (by simpa using hcontra)
              | null => simp at h
              | bool b => simp at h
              | num n => simp at h
              | str s => simp at h
              | arr xs => simp at h
      · simp [hj] at h
  | null => simp [processItem] at h
  | bool b => simp [processItem] at h
  | num n => simp [processItem] at h
  | str s => simp [processItem] at h
  | arr xs => simp [processItem] at h

theorem processLoop_names (download : JVal → Except Unit String)
    (parse : String → Except Unit JVal) (files : List JVal) :
    ∀ (acc : List Entry) (errs : Nat) (res : List Entry × Nat),
    processLoop download parse files acc errs = Except.ok res →
    (∀ e ∈ acc, e.name ≠ JVal.null ∧ e.name ≠ JVal.str "") →
    ∀ e ∈ res.1, e.name ≠ JVal.null ∧ e.name ≠ JVal.str "" := by
  induction files with
  | nil =>
    intro acc errs res h hacc e he
    simp [processLoop] at h
    rw [← h] at he
    exact hacc e he
  | cons f rest ih =>
    intro acc errs res h hacc e he
    cases hpi : processItem download parse f with
    | error u => simp [processLoop, hpi] at h
    | ok o =>
      cases o with
      | none =>
        simp only [processLoop, hpi] at h
        exact ih _ _ _ h hacc e he
      | some r =>
        cases r with
        | ok e' =>
          simp only [processLoop, hpi] at h
          refine ih _ _ _ h ?_ e he
          intro x hx
          rcases List.mem_append.1 hx with hx | hx
          · exact hacc x hx
          · have hxe : x = e' := by simpa using hx
            subst hxe
            exact processItem_name_ok download parse f x hpi
        | error u =>
          simp only [processLoop, hpi] at h
          exact ih _ _ _ h hacc e he

/-- Claim C10: every entry emitted into `services` has a non-null, non-empty
name, and whenever the parsed document's `name` field is missing (null) or
the empty string, the entry's name is the stem of the file's path — the
filename without its `.json` extension. -/
theorem services_name_nonempty :
    (∀ download parse files res,
      processFiles download parse files = Except.ok res →
      ∀ e ∈ res.1, e.name ≠ JVal.null ∧ e.name ≠ JVal.str "") ∧
    (∀ f path svc e, buildEntry f path svc = Except.ok e →
      (jget svc "name" = JVal.null ∨ jget svc "name" = JVal.str "") →
      e.name = JVal.str (pathStem path)) := by
  constructor
  · intro download parse files res h e he
    exact processLoop_names download parse files [] 0 res h
      (by intro x hx; cases hx) e he
  · intro f path svc e h hname
    unfold buildEntry at h
    cases svc with
    | obj ss =>
      cases hl : pick_best_link (JVal.obj ss) (jget f "html_url") with
      | error u => simp [hl] at h
      | ok link =>
        simp only [hl, Except.ok.injEq] at h
        subst h
        have ht : pyTruthy (jget (JVal.obj ss) "name") = false := by
          rcases hname with h' | h' <;> rw [h'] <;> rfl
        simp [ht]
    | null => simp at h
    | bool b => simp at h
    | num n => simp at h
    | str s => simp at h
    | arr xs => simp at h

theorem services_name_nonempty_witness :
    entryW.name ≠ JVal.null ∧ entryW.name ≠ JVal.str "" :=
  services_name_nonempty.1 dlW psW [fgoodW] ([entryW], 0) rfl entryW
    (by simp)
